import Mathlib

/-!
Verification development for a conversational task-manager service
(Cloudflare Worker + Durable Object).  The embedding below translates
the TypeScript source into Lean:

* `parseCommand` (src/utils.ts) — the naive chat-command parser;
* `TaskManager.fetch` (the Durable Object) — the per-user task store;
* `handleChat` (src/index.ts, the `POST /api/chat` branch of the
  Worker's fetch handler) — request validation, routing to the store,
  the hosted-model fallback and its error handling.

Strings are modelled as `List Char` (one entry per code unit; all the
concrete inputs of interest are ASCII).  JavaScript string primitives
(`trim`, `toLowerCase`, `startsWith`, `endsWith`, `lastIndexOf`,
`substring`) are given explicit executable models.
-/

namespace TaskApp

/-- Shorthand turning a Lean string literal into the `List Char` model. -/
def str (s : String) : List Char := s.toList

/-- The JavaScript whitespace class (`\s`, also the set removed by
`String.prototype.trim`): space, tab, LF, VT, FF, CR, NBSP and the
Unicode space separators, line/paragraph separators and BOM. -/
def isWs (c : Char) : Bool :=
  let n := c.toNat
  n = 32 || n = 9 || n = 10 || n = 11 || n = 12 || n = 13 || n = 160 ||
  n = 0x1680 || (0x2000 ≤ n && n ≤ 0x200A) || n = 0x2028 || n = 0x2029 ||
  n = 0x202F || n = 0x205F || n = 0x3000 || n = 0xFEFF

/-- ASCII model of `String.prototype.toLowerCase` (and of `/i`
case-insensitive matching): uppercase A–Z maps to a–z. -/
def lowerC (c : Char) : Char :=
  if 65 ≤ c.toNat && c.toNat ≤ 90 then Char.ofNat (c.toNat + 32) else c

/-- Lower-case an entire string. -/
def lowerL (s : List Char) : List Char := s.map lowerC

/-- Boolean test that `needle` is a leading segment of `hay`
(JS `String.prototype.startsWith`). -/
def isPrefixL : List Char → List Char → Bool
  | [], _ => true
  | _ :: _, [] => false
  | a :: as, b :: bs => a = b && isPrefixL as bs

/-- Boolean test that `needle` is a trailing segment of `hay`
(JS `String.prototype.endsWith`). -/
def isSuffixL (needle hay : List Char) : Bool :=
  isPrefixL needle.reverse hay.reverse

/-- JS `String.prototype.trim`: drop leading and trailing `\s`. -/
def trim (s : List Char) : List Char :=
  ((s.dropWhile isWs).reverse.dropWhile isWs).reverse

/-- JS `String.prototype.lastIndexOf`: the greatest index at which
`needle` occurs in full inside `hay`, or `none` when it never occurs
(`none` models the JavaScript return value `-1`). -/
def lastIndexOf (needle : List Char) : List Char → Option Nat
  | [] => if isPrefixL needle [] then some 0 else none
  | c :: t =>
    match lastIndexOf needle t with
    | some i => some (i + 1)
    | none => if isPrefixL needle (c :: t) then some 0 else none

/-- `lastIndexOf` with the JavaScript `-1`-for-absent convention. -/
def lastIndexOfI (needle hay : List Char) : Int :=
  match lastIndexOf needle hay with
  | some i => (i : Int)
  | none => -1

/-- Parse result of `parseCommand` (src/utils.ts, `Command`). -/
inductive Command
  | add (title : List Char) (dueDate : Option (List Char))
  | list
  | none
deriving DecidableEq, Repr

/-- Model of `trimmed.replace(/^\s*(add task|add|create)\s+/i, "")`
from src/utils.ts line 39.  The regex is anchored, the alternatives are
tried left to right (with backtracking into the alternation when the
following `\s+` fails), and `\s+` greedily eats the whitespace after
the keyword; when nothing matches, `replace` returns the string
unchanged. -/
def stripKeyword (s : List Char) : List Char :=
  let t := s.dropWhile isWs
  let altMatch : List Char → Bool := fun a =>
    isPrefixL a (lowerL t) &&
      (match (t.drop a.length).head? with
       | some c => isWs c
       | Option.none => false)
  if altMatch (str "add task") then (t.drop 8).dropWhile isWs
  else if altMatch (str "add") then (t.drop 3).dropWhile isWs
  else if altMatch (str "create") then (t.drop 6).dropWhile isWs
  else s

/-- Model of `parseCommand` (src/utils.ts lines 27–61): trim the
message, lower-case a copy for matching, recognise the `list` patterns,
then the `add` patterns; in the add branch strip the keyword, split on
the last case-insensitive occurrence of `" by "` / `" on "` (larger
index wins, both keywords have length 4), trim title and due date,
reject an empty title, and coerce an empty due date to absent
(`dueDate || undefined`). -/
def parseCommand (message : List Char) : Command :=
  let trimmed := trim message
  let lower := lowerL trimmed
  if lower = str "list" ∨ lower = str "list tasks" ∨
      isPrefixL (str "show tasks") lower then
    Command.list
  else if isPrefixL (str "add ") lower ∨ isPrefixL (str "add task ") lower ∨
      isPrefixL (str "create ") lower then
    let remainder := stripKeyword trimmed
    let byIndex := lastIndexOfI (str " by ") (lowerL remainder)
    let onIndex := lastIndexOfI (str " on ") (lowerL remainder)
    let idx := max byIndex onIndex
    let p : List Char × Option (List Char) :=
      if 0 ≤ idx then
        (trim (remainder.take idx.toNat),
         some (trim (remainder.drop (idx.toNat + 4))))
      else
        (remainder, Option.none)
    let title := trim p.1
    if title.length = 0 then Command.none
    else
      Command.add title
        (match p.2 with
         | some d => if d = [] then Option.none else some d
         | Option.none => Option.none)
  else Command.none

/-- A JSON value as the store and handler observe it after
`request.json()`; `Option JVal` models a possibly-missing object field
(`undefined`).  Only the shapes the claims exercise are needed. -/
inductive JVal
  | jstr (s : List Char)
  | jnum (n : Int)
  | jbool (b : Bool)
  | jnull
deriving DecidableEq, Repr

/-- JavaScript `String(x)` on a possibly-missing field
(`String(undefined) = "undefined"`). -/
def jsToString : Option JVal → List Char
  | Option.none => str "undefined"
  | some (JVal.jstr s) => s
  | some (JVal.jnum n) => (toString n).toList
  | some (JVal.jbool true) => str "true"
  | some (JVal.jbool false) => str "false"
  | some JVal.jnull => str "null"

/-- JavaScript truthiness of a possibly-missing field (`undefined`,
`null`, `false`, `0` and `""` are falsy). -/
def jsTruthy : Option JVal → Bool
  | Option.none => false
  | some (JVal.jstr s) => !s.isEmpty
  | some (JVal.jnum n) => n ≠ 0
  | some (JVal.jbool b) => b
  | some JVal.jnull => false

/-- A stored task (the Durable Object's `Task` interface). -/
structure Task where
  id : List Char
  title : List Char
  dueDate : Option (List Char)
  createdAt : List Char
deriving DecidableEq, Repr

/-- HTTP method of a request to the store. -/
inductive HttpMethod
  | GET
  | POST
deriving DecidableEq, Repr

/-- JSON body of a store request: an object whose `title` / `dueDate`
fields may each be absent or hold any JSON value. -/
structure StoreBody where
  title : Option JVal
  dueDate : Option JVal
deriving DecidableEq, Repr

/-- A request to the Durable Object: method, URL pathname and, when the
body is a parseable JSON object, its fields (`none` models a body
`request.json()` rejects). -/
structure StoreRequest where
  method : HttpMethod
  path : List Char
  body : Option StoreBody
deriving DecidableEq, Repr

/-- Response of the Durable Object's fetch handler.  `thrown` models
the uncaught rejection when `request.json()` fails in the add branch
(the object has no try/catch). -/
inductive StoreResponse
  | created (t : Task)
  | taskList (ts : List Task)
  | notFound
  | thrown
deriving DecidableEq, Repr

/-- Model of `TaskManager.fetch`: the stored `tasks` array is the
state threaded explicitly; `freshId` stands for `crypto.randomUUID()`
and `now` for `new Date().toISOString()`.  `POST` to a path ending in
`"/add"` appends one task built from the body (`String(title)`,
`dueDate ? String(dueDate) : undefined`) and answers 201 with it;
`GET` to a path ending in `"/list"` answers the current array
unchanged; anything else is 404. -/
def TaskManager.fetch (freshId now : List Char) (tasks : List Task)
    (req : StoreRequest) : List Task × StoreResponse :=
  if req.method = HttpMethod.POST ∧ isSuffixL (str "/add") req.path then
    match req.body with
    | some b =>
      let task : Task :=
        { id := freshId
          title := jsToString b.title
          dueDate := if jsTruthy b.dueDate then some (jsToString b.dueDate)
                     else Option.none
          createdAt := now }
      (tasks ++ [task], StoreResponse.created task)
    | Option.none => (tasks, StoreResponse.thrown)
  else if req.method = HttpMethod.GET ∧ isSuffixL (str "/list") req.path then
    (tasks, StoreResponse.taskList tasks)
  else
    (tasks, StoreResponse.notFound)

/-- Body of the `POST /api/chat` request after `request.json()`:
each field may be absent or hold any JSON value (the handler checks
`typeof ... === "string"`). -/
structure ChatRequest where
  userId : Option JVal
  message : Option JVal
deriving DecidableEq, Repr

/-- Body of the worker's HTTP response: plain text (the 400 answers)
or a JSON object with a `reply` field and, on the list path, the raw
`tasks` array. -/
inductive BodyV
  | text (s : List Char)
  | json (reply : List Char) (tasks : Option (List Task))
deriving DecidableEq, Repr

/-- The worker's HTTP response: status code and body. -/
structure ChatResponse where
  status : Nat
  body : BodyV
deriving DecidableEq, Repr

/-- Result of one `POST /api/chat` request: the response, the
post-state of every user's store, and whether the request touched the
store (read / write) or invoked the hosted model. -/
structure ChatResult where
  resp : ChatResponse
  stores : List Char → List Task
  storeRead : Bool
  storeWrite : Bool
  modelCalled : Bool

/-- Model of `env.TASK_MANAGER.idFromName`: a deterministic (and on
the platform collision-free, hence here injective) derivation of the
storage key from the user identifier, modelled as the identity. -/
def idFromName (userId : List Char) : List Char := userId

/-- The fixed unavailability reply of the model-failure branch. -/
def unavailableMsg : List Char :=
  str "The AI model is currently unavailable. Please try again later."

/-- The fixed reply of the empty list. -/
def noTasksMsg : List Char := str "You have no tasks."

/-- One line of the numbered list reply:
`"<n>. <title>"` plus `" (due <dueDate>)"` when the due date is
truthy. -/
def taskLine (i : Nat) (t : Task) : List Char :=
  (toString (i + 1)).toList ++ str ". " ++ t.title ++
    (match t.dueDate with
     | some d => if d = [] then [] else str " (due " ++ d ++ str ")"
     | Option.none => [])

/-- Confirmation reply of the add branch. -/
def addedReply (title : List Char) (due : Option (List Char)) : List Char :=
  str "Added task \"" ++ title ++ str "\"" ++
    (match due with
     | some d => if d = [] then [] else str " due by " ++ d
     | Option.none => []) ++ str "."

/-- Model of the `POST /api/chat` branch of the worker's fetch handler
(src/index.ts lines 97–155).  `body` is the parsed request body
(`none` when `request.json()` rejects, handled by the outer catch);
`stores` maps each derived storage key to that object's task array;
`ai` is the hosted-model call for this request (`none` models a
throw); `freshId` / `now` feed the store.  The handler validates the
field types, parses the message, and routes to the store or the
model. -/
def handleChat (body : Option ChatRequest) (stores : List Char → List Task)
    (ai : Option (List Char)) (freshId now : List Char) : ChatResult :=
  match body with
  | Option.none =>
    { resp := { status := 400, body := BodyV.text (str "Bad Request") }
      stores := stores, storeRead := false, storeWrite := false
      modelCalled := false }
  | some b =>
    match b.userId, b.message with
    | some (JVal.jstr uid), some (JVal.jstr msg) =>
      let key := idFromName uid
      match parseCommand msg with
      | Command.add title due =>
        let storeReq : StoreRequest :=
          { method := HttpMethod.POST
            path := str "/" ++ uid ++ str "/add"
            body := some { title := some (JVal.jstr title)
                           dueDate := due.map JVal.jstr } }
        let r := TaskManager.fetch freshId now (stores key) storeReq
        { resp := { status := 200
                    body := BodyV.json (addedReply title due) Option.none }
          stores := fun k => if k = key then r.1 else stores k
          storeRead := true, storeWrite := true, modelCalled := false }
      | Command.list =>
        let storeReq : StoreRequest :=
          { method := HttpMethod.GET
            path := str "/" ++ uid ++ str "/list"
            body := Option.none }
        let r := TaskManager.fetch freshId now (stores key) storeReq
        let ts := match r.2 with
          | StoreResponse.taskList ts => ts
          | _ => []
        let reply :=
          if ts ≠ [] then
            List.intercalate (str "\n")
              (ts.enum.map (fun p => taskLine p.1 p.2))
          else noTasksMsg
        { resp := { status := 200, body := BodyV.json reply (some ts) }
          stores := fun k => if k = key then r.1 else stores k
          storeRead := true, storeWrite := false, modelCalled := false }
      | Command.none =>
        match ai with
        | some reply =>
          { resp := { status := 200, body := BodyV.json reply Option.none }
            stores := stores, storeRead := false, storeWrite := false
            modelCalled := true }
        | Option.none =>
          { resp := { status := 503
                      body := BodyV.json unavailableMsg Option.none }
            stores := stores, storeRead := false, storeWrite := false
            modelCalled := true }
    | _, _ =>
      { resp := { status := 400, body := BodyV.text (str "Invalid request body") }
        stores := stores, storeRead := false, storeWrite := false
        modelCalled := false }

/-- Spec-side predicate: the store request that the worker's add branch
issues for user `uid`. -/
def addRequest (uid title : List Char) (due : Option (List Char)) :
    StoreRequest :=
  { method := HttpMethod.POST
    path := str "/" ++ uid ++ str "/add"
    body := some { title := some (JVal.jstr title)
                   dueDate := due.map JVal.jstr } }

/-- The store request that the worker's list branch issues. -/
def listRequest (uid : List Char) : StoreRequest :=
  { method := HttpMethod.GET
    path := str "/" ++ uid ++ str "/list"
    body := Option.none }

/-- Run a sequence of add operations against one user's store; each
entry of `ps` supplies the fresh id, the timestamp and the title of
one add. -/
def runAdds (uid : List Char) (ps : List (List Char × List Char × List Char))
    (tasks : List Task) : List Task :=
  ps.foldl
    (fun ts p => (TaskManager.fetch p.1 p.2.1 ts (addRequest uid p.2.2 Option.none)).1)
    tasks

/-- HTTP status of a store response (`none` for the uncaught
rejection). -/
def storeStatus : StoreResponse → Option Nat
  | StoreResponse.created _ => some 201
  | StoreResponse.taskList _ => some 200
  | StoreResponse.notFound => some 404
  | StoreResponse.thrown => Option.none

/-- The normalized form the parser matches against (spec §4.1): the
trimmed, lower-cased message. -/
def normalize (m : List Char) : List Char := lowerL (trim m)

/-- Spec-side predicate: the normalized message matches one of the
list patterns. -/
def matchesList (x : List Char) : Prop :=
  x = str "list" ∨ x = str "list tasks" ∨ isPrefixL (str "show tasks") x = true

/-- Spec-side predicate: the normalized message matches one of the
add patterns. -/
def matchesAdd (x : List Char) : Prop :=
  isPrefixL (str "add ") x = true ∨ isPrefixL (str "add task ") x = true ∨
    isPrefixL (str "create ") x = true

/-- Spec-side predicate: one of the substrings `" by "` / `" on "`
occurs (case-insensitively) at index `i` of `r`. -/
def keywordAt (r : List Char) (i : Nat) : Prop :=
  isPrefixL (str " by ") ((lowerL r).drop i) = true ∨
    isPrefixL (str " on ") ((lowerL r).drop i) = true

instance (x : List Char) : Decidable (matchesList x) := by
  unfold matchesList; infer_instance

instance (x : List Char) : Decidable (matchesAdd x) := by
  unfold matchesAdd; infer_instance

instance (r : List Char) (i : Nat) : Decidable (keywordAt r i) := by
  unfold keywordAt; infer_instance

/-- `x` occurs as a contiguous slice of `y`. -/
def SliceOf (x y : List Char) : Prop := ∃ p q, y = p ++ x ++ q

/-- Chat request whose two fields hold JSON strings (the well-typed
shape the handler accepts). -/
def strRequest (uid msg : List Char) : ChatRequest :=
  { userId := some (JVal.jstr uid), message := some (JVal.jstr msg) }

/-- Spec-side predicate: the request-body field holds a JSON string
(`typeof x === "string"`). -/
def isStrField : Option JVal → Bool
  | some (JVal.jstr _) => true
  | _ => false

section StringLemmas

theorem isPrefixL_iff (n h : List Char) :
    isPrefixL n h = true ↔ ∃ t, h = n ++ t := by
  induction n generalizing h with
  | nil => simp [isPrefixL]
  | cons a as ih =>
    cases h with
    | nil =>
      simp [isPrefixL]
    | cons b bs =>
      simp only [isPrefixL, Bool.and_eq_true, decide_eq_true_eq, ih,
        List.cons_append, List.cons.injEq]
      constructor
      · rintro ⟨rfl, t, rfl⟩
        exact ⟨t, rfl, rfl⟩
      · rintro ⟨t, rfl, rfl⟩
        exact ⟨rfl, t, rfl⟩

theorem isPrefixL_self_append (n t : List Char) :
    isPrefixL n (n ++ t) = true :=
  (isPrefixL_iff n (n ++ t)).mpr ⟨t, rfl⟩

theorem isSuffixL_append (a b : List Char) : isSuffixL a (b ++ a) = true := by
  unfold isSuffixL
  rw [List.reverse_append]
  exact isPrefixL_self_append a.reverse b.reverse

theorem dropWhile_suffixE (p : Char → Bool) (l : List Char) :
    ∃ t, l = t ++ l.dropWhile p := by
  induction l with
  | nil => exact ⟨[], rfl⟩
  | cons a l ih =>
    by_cases h : p a
    · obtain ⟨t, ht⟩ := ih
      exact ⟨a :: t, by simp [List.dropWhile_cons, h]; exact ht⟩
    · exact ⟨[], by simp [List.dropWhile_cons, h]⟩

theorem head_dropWhile_ws (l : List Char) (c : Char)
    (h : (l.dropWhile isWs).head? = some c) : isWs c = false := by
  have hh := List.head?_dropWhile_not isWs l
  rw [h] at hh
  exact hh

theorem dropWhile_eq_self_of_head (p : Char → Bool) (l : List Char)
    (h : ∀ c, l.head? = some c → p c = false) : l.dropWhile p = l := by
  cases l with
  | nil => rfl
  | cons a t => simp [List.dropWhile_cons, h a rfl]

theorem head?_of_prefixE (l m : List Char) (hne : l ≠ [])
    (h : ∃ t, m = l ++ t) : l.head? = m.head? := by
  obtain ⟨t, rfl⟩ := h
  cases l with
  | nil => exact absurd rfl hne
  | cons a as => rfl

/-- The trimmed string, read backwards, is what `dropWhile` leaves of
the reversed left-trimmed string. -/
theorem trim_eq (s : List Char) :
    trim s = ((s.dropWhile isWs).reverse.dropWhile isWs).reverse := rfl

/-- The trimmed string is a leading segment of the left-trimmed
string. -/
theorem trim_prefixE (s : List Char) :
    ∃ t, s.dropWhile isWs = trim s ++ t := by
  obtain ⟨t, ht⟩ := dropWhile_suffixE isWs (s.dropWhile isWs).reverse
  refine ⟨t.reverse, ?_⟩
  have := congrArg List.reverse ht
  rw [List.reverse_reverse, List.reverse_append] at this
  exact this

theorem trim_headNotWs (s : List Char) (c : Char)
    (h : (trim s).head? = some c) : isWs c = false := by
  have hne : trim s ≠ [] := by
    intro he
    rw [he] at h
    exact Option.noConfusion h
  obtain ⟨t, ht⟩ := trim_prefixE s
  have hh : (trim s).head? = (s.dropWhile isWs).head? :=
    head?_of_prefixE _ _ hne ⟨t, ht⟩
  exact head_dropWhile_ws s c (hh ▸ h)

theorem trim_trim (s : List Char) : trim (trim s) = trim s := by
  have h1 : (trim s).dropWhile isWs = trim s :=
    dropWhile_eq_self_of_head _ _ (trim_headNotWs s)
  have h2 : ((s.dropWhile isWs).reverse.dropWhile isWs).dropWhile isWs =
      (s.dropWhile isWs).reverse.dropWhile isWs := by
    apply dropWhile_eq_self_of_head
    intro c hc
    exact head_dropWhile_ws _ c hc
  rw [trim_eq (trim s), h1, trim_eq s, List.reverse_reverse, h2]

theorem sliceOf_trans (x y z : List Char) (h1 : SliceOf x y)
    (h2 : SliceOf y z) : SliceOf x z := by
  obtain ⟨p, q, rfl⟩ := h1
  obtain ⟨p2, q2, rfl⟩ := h2
  exact ⟨p2 ++ p, q ++ q2, by simp⟩

theorem trim_sliceOf (s : List Char) : SliceOf (trim s) s := by
  obtain ⟨t, ht⟩ := trim_prefixE s
  obtain ⟨t2, ht2⟩ := dropWhile_suffixE isWs s
  exact ⟨t2, t, by rw [List.append_assoc, ← ht, ← ht2]⟩

theorem take_sliceOf (n : Nat) (l : List Char) : SliceOf (l.take n) l :=
  ⟨[], l.drop n, by simp⟩

theorem drop_sliceOf (n : Nat) (l : List Char) : SliceOf (l.drop n) l :=
  ⟨l.take n, [], by simp⟩

theorem stripKeyword_suffixE (s : List Char) :
    ∃ p, s = p ++ stripKeyword s := by
  have base : ∀ n : Nat, ∃ p, s = p ++ ((s.dropWhile isWs).drop n).dropWhile isWs := by
    intro n
    obtain ⟨a, ha⟩ := dropWhile_suffixE isWs s
    obtain ⟨c, hc⟩ := dropWhile_suffixE isWs ((s.dropWhile isWs).drop n)
    refine ⟨a ++ (s.dropWhile isWs).take n ++ c, ?_⟩
    calc s = a ++ s.dropWhile isWs := ha
    _ = a ++ ((s.dropWhile isWs).take n ++ (s.dropWhile isWs).drop n) := by
        rw [List.take_append_drop]
    _ = a ++ ((s.dropWhile isWs).take n ++
          (c ++ ((s.dropWhile isWs).drop n).dropWhile isWs)) := by rw [← hc]
    _ = a ++ (s.dropWhile isWs).take n ++ c ++
          ((s.dropWhile isWs).drop n).dropWhile isWs := by simp [List.append_assoc]
  simp only [stripKeyword]
  split
  · exact base 8
  · split
    · exact base 3
    · split
      · exact base 6
      · exact ⟨[], rfl⟩

theorem stripKeyword_sliceOf (s : List Char) : SliceOf (stripKeyword s) s := by
  obtain ⟨p, hp⟩ := stripKeyword_suffixE s
  exact ⟨p, [], by rw [List.append_nil]; exact hp⟩

theorem lastIndexOf_found (n h : List Char) (i : Nat)
    (hli : lastIndexOf n h = some i) : isPrefixL n (h.drop i) = true := by
  induction h generalizing i with
  | nil =>
    simp only [lastIndexOf] at hli
    split at hli
    · rename_i hcond
      cases hli
      exact hcond
    · exact absurd hli (by simp)
  | cons c t ih =>
    rw [lastIndexOf] at hli
    cases hrec : lastIndexOf n t with
    | some j =>
      simp only [hrec] at hli
      cases hli
      rw [List.drop_succ_cons]
      exact ih j hrec
    | none =>
      simp only [hrec] at hli
      by_cases hcond : isPrefixL n (c :: t) = true
      · rw [if_pos hcond] at hli
        cases hli
        exact hcond
      · rw [if_neg hcond] at hli
        exact absurd hli (by simp)

theorem lastIndexOf_none (n h : List Char)
    (hli : lastIndexOf n h = Option.none) :
    ∀ j, isPrefixL n (h.drop j) = false := by
  induction h with
  | nil =>
    intro j
    simp only [lastIndexOf] at hli
    split at hli
    · exact absurd hli (by simp)
    · rename_i hcond
      rw [List.drop_nil]
      exact Bool.not_eq_true _ ▸ hcond
  | cons c t ih =>
    intro j
    rw [lastIndexOf] at hli
    cases hrec : lastIndexOf n t with
    | some k =>
      simp only [hrec] at hli
      exact absurd hli (by simp)
    | none =>
      simp only [hrec] at hli
      by_cases hcond : isPrefixL n (c :: t) = true
      · rw [if_pos hcond] at hli
        exact absurd hli (by simp)
      · cases j with
        | zero => exact Bool.not_eq_true _ ▸ hcond
        | succ k =>
          rw [List.drop_succ_cons]
          exact ih hrec k

theorem lastIndexOf_greatest (n h : List Char) (hn : n ≠ []) (i : Nat)
    (hli : lastIndexOf n h = some i) :
    ∀ j, isPrefixL n (h.drop j) = true → j ≤ i := by
  induction h generalizing i with
  | nil =>
    intro j hj
    simp only [lastIndexOf] at hli
    split at hli
    · rename_i hcond
      exfalso
      cases n with
      | nil => exact hn rfl
      | cons a as => simp [isPrefixL] at hcond
    · exact absurd hli (by simp)
  | cons c t ih =>
    intro j hj
    rw [lastIndexOf] at hli
    cases hrec : lastIndexOf n t with
    | some k =>
      simp only [hrec] at hli
      cases hli
      cases j with
      | zero => exact Nat.zero_le _
      | succ j2 =>
        rw [List.drop_succ_cons] at hj
        exact Nat.succ_le_succ (ih k hrec j2 hj)
    | none =>
      simp only [hrec] at hli
      by_cases hcond : isPrefixL n (c :: t) = true
      · rw [if_pos hcond] at hli
        cases hli
        cases j with
        | zero => exact Nat.le_refl 0
        | succ j2 =>
          rw [List.drop_succ_cons] at hj
          rw [lastIndexOf_none n t hrec j2] at hj
          exact absurd hj (by simp)
      · rw [if_neg hcond] at hli
        exact absurd hli (by simp)

theorem maxKeywordIdx_pos (r : List Char) (i : Nat)
    (h : max (lastIndexOfI (str " by ") (lowerL r))
        (lastIndexOfI (str " on ") (lowerL r)) = (i : Int)) :
    keywordAt r i ∧ ∀ j, keywordAt r j → j ≤ i := by
  cases hby : lastIndexOf (str " by ") (lowerL r) with
  | some a =>
    cases hon : lastIndexOf (str " on ") (lowerL r) with
    | some b =>
      simp only [lastIndexOfI, hby, hon] at h
      rw [← Nat.cast_max] at h
      have hi : max a b = i := Nat.cast_inj.mp h
      subst hi
      constructor
      · rcases Nat.le_total a b with hab | hba
        · rw [Nat.max_eq_right hab]
          exact Or.inr (lastIndexOf_found _ _ _ hon)
        · rw [Nat.max_eq_left hba]
          exact Or.inl (lastIndexOf_found _ _ _ hby)
      · intro j hj
        rcases hj with hj | hj
        · exact Nat.le_trans
            (lastIndexOf_greatest _ _ (by decide) a hby j hj) (Nat.le_max_left a b)
        · exact Nat.le_trans
            (lastIndexOf_greatest _ _ (by decide) b hon j hj) (Nat.le_max_right a b)
    | none =>
      simp only [lastIndexOfI, hby, hon] at h
      rw [max_eq_left (by omega : (-1 : Int) ≤ (a : Int))] at h
      have hi : a = i := Nat.cast_inj.mp h
      subst hi
      constructor
      · exact Or.inl (lastIndexOf_found _ _ _ hby)
      · intro j hj
        rcases hj with hj | hj
        · exact lastIndexOf_greatest _ _ (by decide) a hby j hj
        · rw [lastIndexOf_none _ _ hon j] at hj
          exact absurd hj (by simp)
  | none =>
    cases hon : lastIndexOf (str " on ") (lowerL r) with
    | some b =>
      simp only [lastIndexOfI, hby, hon] at h
      rw [max_eq_right (by omega : (-1 : Int) ≤ (b : Int))] at h
      have hi : b = i := Nat.cast_inj.mp h
      subst hi
      constructor
      · exact Or.inr (lastIndexOf_found _ _ _ hon)
      · intro j hj
        rcases hj with hj | hj
        · rw [lastIndexOf_none _ _ hby j] at hj
          exact absurd hj (by simp)
        · exact lastIndexOf_greatest _ _ (by decide) b hon j hj
    | none =>
      simp only [lastIndexOfI, hby, hon] at h
      norm_num at h
      omega

theorem maxKeywordIdx_neg (r : List Char)
    (h : max (lastIndexOfI (str " by ") (lowerL r))
        (lastIndexOfI (str " on ") (lowerL r)) < 0) :
    ∀ j, ¬ keywordAt r j := by
  cases hby : lastIndexOf (str " by ") (lowerL r) with
  | some a =>
    simp only [lastIndexOfI, hby] at h
    have := le_max_left ((a : Int)) (lastIndexOfI (str " on ") (lowerL r))
    omega
  | none =>
    cases hon : lastIndexOf (str " on ") (lowerL r) with
    | some b =>
      simp only [lastIndexOfI, hby, hon] at h
      have := le_max_right ((-1 : Int)) ((b : Int))
      omega
    | none =>
      intro j hj
      rcases hj with hj | hj
      · rw [lastIndexOf_none _ _ hby j] at hj
        exact absurd hj (by simp)
      · rw [lastIndexOf_none _ _ hon j] at hj
        exact absurd hj (by simp)

/-- Full characterization of the add branch of `parseCommand`: when the
parser returns an add command, either some `" by "` / `" on "` keyword
occurs in the stripped remainder and the command is split at the last
such occurrence, or no keyword occurs and the whole remainder is the
title; in both cases the title is non-empty. -/
theorem parseCommand_eq_add (m t : List Char) (od : Option (List Char))
    (h : parseCommand m = Command.add t od) :
    (∃ i : Nat,
        keywordAt (stripKeyword (trim m)) i ∧
        (∀ j, keywordAt (stripKeyword (trim m)) j → j ≤ i) ∧
        t = trim ((stripKeyword (trim m)).take i) ∧ t ≠ [] ∧
        ((od = Option.none ∧ trim ((stripKeyword (trim m)).drop (i + 4)) = []) ∨
          (od = some (trim ((stripKeyword (trim m)).drop (i + 4))) ∧
            trim ((stripKeyword (trim m)).drop (i + 4)) ≠ []))) ∨
    ((∀ j, ¬ keywordAt (stripKeyword (trim m)) j) ∧
      od = Option.none ∧ t = trim (stripKeyword (trim m)) ∧ t ≠ []) := by
  simp only [parseCommand] at h
  split at h
  · simp at h
  · split at h
    · by_cases hidx : (0 : Int) ≤
        max (lastIndexOfI (str " by ") (lowerL (stripKeyword (trim m))))
          (lastIndexOfI (str " on ") (lowerL (stripKeyword (trim m))))
      · rw [if_pos hidx] at h
        dsimp only at h
        have hmax : max (lastIndexOfI (str " by ") (lowerL (stripKeyword (trim m))))
            (lastIndexOfI (str " on ") (lowerL (stripKeyword (trim m)))) =
            ((max (lastIndexOfI (str " by ") (lowerL (stripKeyword (trim m))))
              (lastIndexOfI (str " on ") (lowerL (stripKeyword (trim m))))).toNat : Int) :=
          (Int.toNat_of_nonneg hidx).symm
        obtain ⟨hkw, hgr⟩ := maxKeywordIdx_pos (stripKeyword (trim m)) _ hmax
        split at h
        · simp at h
        · rename_i htl
          injection h with h1 h2
          refine Or.inl ⟨_, hkw, hgr, ?_, ?_, ?_⟩
          · rw [← h1, trim_trim]
          · intro hte
            rw [h1, hte] at htl
            exact htl rfl
          · by_cases hd : trim ((stripKeyword (trim m)).drop
                ((max (lastIndexOfI (str " by ") (lowerL (stripKeyword (trim m))))
                  (lastIndexOfI (str " on ") (lowerL (stripKeyword (trim m))))).toNat + 4)) = []
            · rw [if_pos hd] at h2
              exact Or.inl ⟨h2.symm, hd⟩
            · rw [if_neg hd] at h2
              exact Or.inr ⟨h2.symm, hd⟩
      · rw [if_neg hidx] at h
        dsimp only at h
        split at h
        · simp at h
        · rename_i htl
          injection h with h1 h2
          refine Or.inr ⟨maxKeywordIdx_neg _ (by omega), h2.symm, h1.symm, ?_⟩
          intro hte
          rw [h1, hte] at htl
          exact htl rfl
    · simp at h

end StringLemmas

/-- C5: For every message recognized as an add command, the due date
is extracted by splitting the stripped remainder at the last
case-insensitive occurrence of `" by "` or `" on "` (whichever occurs
later wins; both keywords have length 4); the text after the keyword
becomes the due date (trimmed) and the text before becomes the title
(trimmed).  A remainder containing neither substring yields an add
with no due date, and `parse "add buy groceries by Friday"` yields
title `"buy groceries"` with due date `"Friday"`. -/
theorem dueDate_lastKeywordSplit :
    (∀ m t d, parseCommand m = Command.add t (some d) →
      ∃ i : Nat,
        keywordAt (stripKeyword (trim m)) i ∧
        (∀ j, keywordAt (stripKeyword (trim m)) j → j ≤ i) ∧
        t = trim ((stripKeyword (trim m)).take i) ∧
        d = trim ((stripKeyword (trim m)).drop (i + 4))) ∧
    (∀ m t od, parseCommand m = Command.add t od →
      (∀ j, ¬ keywordAt (stripKeyword (trim m)) j) → od = Option.none) ∧
    parseCommand (str "add buy groceries by Friday") =
      Command.add (str "buy groceries") (some (str "Friday")) := by
  refine ⟨?_, ?_, by decide⟩
  · intro m t d h
    rcases parseCommand_eq_add m t (some d) h with
      ⟨i, hkw, hgr, ht, _, hod⟩ | ⟨_, hod, _, _⟩
    · rcases hod with ⟨hne, _⟩ | ⟨heq, _⟩
      · exact absurd hne (by simp)
      · exact ⟨i, hkw, hgr, ht, Option.some.inj heq⟩
    · exact absurd hod (by simp)
  · intro m t od h hno
    rcases parseCommand_eq_add m t od h with
      ⟨i, hkw, _, _, _, _⟩ | ⟨_, hod, _, _⟩
    · exact absurd hkw (hno i)
    · exact hod

theorem dueDate_lastKeywordSplit_witness :
    ∃ i : Nat,
      keywordAt (stripKeyword (trim (str "add x by y on z"))) i ∧
      (∀ j, keywordAt (stripKeyword (trim (str "add x by y on z"))) j → j ≤ i) ∧
      str "x by y" = trim ((stripKeyword (trim (str "add x by y on z"))).take i) ∧
      str "z" = trim ((stripKeyword (trim (str "add x by y on z"))).drop (i + 4)) :=
  dueDate_lastKeywordSplit.1 (str "add x by y on z") (str "x by y") (str "z")
    (by decide)

/-- C6: the extracted title and due date of every add command are
contiguous slices of the trimmed original message (original casing
preserved); matching alone uses the lower-cased copy, as the
mixed-case example shows. -/
theorem casingPreserved :
    (∀ m t od, parseCommand m = Command.add t od →
      (∃ p q, trim m = p ++ t ++ q) ∧
      ∀ d, od = some d → ∃ p q, trim m = p ++ d ++ q) ∧
    parseCommand (str "Add Buy Groceries By Friday") =
      Command.add (str "Buy Groceries") (some (str "Friday")) := by
  refine ⟨?_, by decide⟩
  intro m t od h
  have hslice : ∀ x : List Char, SliceOf x (stripKeyword (trim m)) →
      ∃ p q, trim m = p ++ x ++ q := by
    intro x hx
    exact sliceOf_trans _ _ _ hx (stripKeyword_sliceOf (trim m))
  rcases parseCommand_eq_add m t od h with
    ⟨i, _, _, ht, _, hod⟩ | ⟨_, hod, ht, _⟩
  · constructor
    · refine hslice t ?_
      rw [ht]
      exact sliceOf_trans _ _ _ (trim_sliceOf _) (take_sliceOf i _)
    · intro d hd
      rw [hd] at hod
      rcases hod with ⟨hne, _⟩ | ⟨heq, _⟩
      · exact absurd hne (by simp)
      · refine hslice d ?_
        rw [Option.some.inj heq]
        exact sliceOf_trans _ _ _ (trim_sliceOf _) (drop_sliceOf _ _)
  · constructor
    · refine hslice t ?_
      rw [ht]
      exact trim_sliceOf _
    · intro d hd
      rw [hd] at hod
      exact absurd hod (by simp)

theorem casingPreserved_witness :
    (∃ p q, trim (str "Add Buy Milk By Friday") = p ++ str "Buy Milk" ++ q) ∧
    ∀ d, (some (str "Friday") : Option (List Char)) = some d →
      ∃ p q, trim (str "Add Buy Milk By Friday") = p ++ d ++ q :=
  casingPreserved.1 (str "Add Buy Milk By Friday") (str "Buy Milk")
    (some (str "Friday")) (by decide)

/-- C7: the parser is a total function; it returns the none intent
whenever neither the list patterns nor the add patterns match the
normalized message, an add command always carries a non-empty title,
and both `parse "add "` and `parse "hello there"` give none. -/
theorem unmatchedMessage_none :
    (∀ m, ¬ matchesList (normalize m) → ¬ matchesAdd (normalize m) →
      parseCommand m = Command.none) ∧
    (∀ m t od, parseCommand m = Command.add t od → t ≠ []) ∧
    parseCommand (str "add ") = Command.none ∧
    parseCommand (str "hello there") = Command.none := by
  refine ⟨?_, ?_, by decide, by decide⟩
  · intro m hl ha
    have hl' : ¬ (lowerL (trim m) = str "list" ∨ lowerL (trim m) = str "list tasks" ∨
        isPrefixL (str "show tasks") (lowerL (trim m)) = true) := hl
    have ha' : ¬ (isPrefixL (str "add ") (lowerL (trim m)) = true ∨
        isPrefixL (str "add task ") (lowerL (trim m)) = true ∨
        isPrefixL (str "create ") (lowerL (trim m)) = true) := ha
    simp only [parseCommand]
    rw [if_neg hl', if_neg ha']
  · intro m t od h
    rcases parseCommand_eq_add m t od h with
      ⟨_, _, _, _, htne, _⟩ | ⟨_, _, _, htne⟩ <;> exact htne

theorem unmatchedMessage_none_witness :
    parseCommand (str "what time is it") = Command.none :=
  unmatchedMessage_none.1 (str "what time is it") (by decide) (by decide)

/-- C10: every add command returned by the parser has a non-empty
title with no surrounding whitespace (it is its own trim), and its due
date, when present, is likewise non-empty and trimmed. -/
theorem addCommand_wellFormed :
    ∀ m t od, parseCommand m = Command.add t od →
      t ≠ [] ∧ trim t = t ∧ ∀ d, od = some d → d ≠ [] ∧ trim d = d := by
  intro m t od h
  rcases parseCommand_eq_add m t od h with
    ⟨i, _, _, ht, htne, hod⟩ | ⟨_, hod, ht, htne⟩
  · refine ⟨htne, by rw [ht, trim_trim], ?_⟩
    intro d hd
    rw [hd] at hod
    rcases hod with ⟨hne, _⟩ | ⟨heq, hdne⟩
    · exact absurd hne (by simp)
    · have hdd := Option.some.inj heq
      constructor
      · rw [hdd]; exact hdne
      · rw [hdd, trim_trim]
  · refine ⟨htne, by rw [ht, trim_trim], ?_⟩
    intro d hd
    rw [hd] at hod
    exact absurd hod (by simp)

theorem addCommand_wellFormed_witness :
    str "buy groceries" ≠ [] ∧
    trim (str "buy groceries") = str "buy groceries" ∧
    ∀ d, (some (str "Friday") : Option (List Char)) = some d →
      d ≠ [] ∧ trim d = d :=
  addCommand_wellFormed (str "add buy groceries by Friday")
    (str "buy groceries") (some (str "Friday")) (by decide)

section StoreLemmas

theorem fetch_add_eq (fid now uid title : List Char) (due : Option (List Char))
    (ts : List Task) :
    TaskManager.fetch fid now ts (addRequest uid title due) =
      (ts ++ [{ id := fid, title := title,
                dueDate := if jsTruthy (due.map JVal.jstr) then
                    some (jsToString (due.map JVal.jstr)) else Option.none,
                createdAt := now }],
       StoreResponse.created
         { id := fid, title := title,
           dueDate := if jsTruthy (due.map JVal.jstr) then
               some (jsToString (due.map JVal.jstr)) else Option.none,
           createdAt := now }) := by
  have hpath : isSuffixL (str "/add") (str "/" ++ uid ++ str "/add") = true :=
    isSuffixL_append _ _
  simp only [TaskManager.fetch, addRequest]
  rw [if_pos ⟨trivial, hpath⟩]
  simp [jsToString]

theorem fetch_add_none (fid now uid title : List Char) (ts : List Task) :
    TaskManager.fetch fid now ts (addRequest uid title Option.none) =
      (ts ++ [{ id := fid, title := title, dueDate := Option.none,
                createdAt := now }],
       StoreResponse.created
         { id := fid, title := title, dueDate := Option.none,
           createdAt := now }) := by
  rw [fetch_add_eq]
  simp [jsTruthy, Option.map]

theorem fetch_list_eq (fid now uid : List Char) (ts : List Task) :
    TaskManager.fetch fid now ts
        { method := HttpMethod.GET, path := str "/" ++ uid ++ str "/list",
          body := Option.none } =
      (ts, StoreResponse.taskList ts) := by
  have hpath : isSuffixL (str "/list") (str "/" ++ uid ++ str "/list") = true :=
    isSuffixL_append _ _
  simp only [TaskManager.fetch]
  rw [if_neg (by simp), if_pos ⟨trivial, hpath⟩]

theorem runAdds_eq (uid : List Char)
    (ps : List (List Char × List Char × List Char)) (ts : List Task) :
    runAdds uid ps ts = ts ++ ps.map
      (fun p => { id := p.1, title := p.2.2, dueDate := Option.none,
                  createdAt := p.2.1 }) := by
  induction ps generalizing ts with
  | nil => simp [runAdds]
  | cons p ps ih =>
    simp only [runAdds, List.foldl_cons] at *
    rw [show (TaskManager.fetch p.1 p.2.1 ts (addRequest uid p.2.2 Option.none)).1 =
        ts ++ [{ id := p.1, title := p.2.2, dueDate := Option.none,
                 createdAt := p.2.1 }] from by rw [fetch_add_none]]
    rw [ih]
    simp

end StoreLemmas

/-- C1: starting from an empty store, a sequence of adds with titles
`t1 … tn` followed by a list returns exactly `n` tasks bearing those
titles in insertion order; each add appends exactly one task at the
end, and the list operation returns the current array without
modifying the state. -/
theorem addThenList_insertionOrder :
    ∀ (uid : List Char) (ps : List (List Char × List Char × List Char))
      (fid now : List Char),
      (runAdds uid ps []).map Task.title = ps.map (fun p => p.2.2) ∧
      (runAdds uid ps []).length = ps.length ∧
      TaskManager.fetch fid now (runAdds uid ps []) (listRequest uid) =
        (runAdds uid ps [], StoreResponse.taskList (runAdds uid ps [])) ∧
      ∀ (ts : List Task) (p : List Char × List Char × List Char),
        runAdds uid [p] ts =
          ts ++ [{ id := p.1, title := p.2.2, dueDate := Option.none,
                   createdAt := p.2.1 }] := by
  intro uid ps fid now
  refine ⟨?_, ?_, ?_, ?_⟩
  · rw [runAdds_eq]
    simp [List.map_map, Function.comp]
  · rw [runAdds_eq]
    simp
  · exact fetch_list_eq fid now uid _
  · intro ts p
    rw [runAdds_eq]
    simp

/-- C9: the store applies no validation to the title it receives: any
`POST` whose path ends with `"/add"` and whose body is a JSON object
appends exactly one task whose title is the JavaScript string coercion
of the body's `title` field (a missing title becomes `"undefined"`, a
falsy due date such as the empty string is stored as absent), answers
201 (`created`) with the new task, and the user-id segment of the path
has no effect on the result. -/
theorem store_add_unvalidated :
    ∀ (fid now : List Char) (ts : List Task) (path : List Char) (b : StoreBody),
      isSuffixL (str "/add") path = true →
      (TaskManager.fetch fid now ts
          { method := HttpMethod.POST, path := path, body := some b } =
        (ts ++ [{ id := fid, title := jsToString b.title,
                  dueDate := if jsTruthy b.dueDate then
                      some (jsToString b.dueDate) else Option.none,
                  createdAt := now }],
         StoreResponse.created
           { id := fid, title := jsToString b.title,
             dueDate := if jsTruthy b.dueDate then
                 some (jsToString b.dueDate) else Option.none,
             createdAt := now })) ∧
      storeStatus (TaskManager.fetch fid now ts
          { method := HttpMethod.POST, path := path, body := some b }).2 =
        some 201 ∧
      (b.title = Option.none → jsToString b.title = str "undefined") ∧
      (b.dueDate = some (JVal.jstr []) →
        (if jsTruthy b.dueDate then some (jsToString b.dueDate)
         else Option.none) = Option.none) ∧
      ∀ path2, isSuffixL (str "/add") path2 = true →
        TaskManager.fetch fid now ts
            { method := HttpMethod.POST, path := path2, body := some b } =
          TaskManager.fetch fid now ts
            { method := HttpMethod.POST, path := path, body := some b } := by
  intro fid now ts path b hpath
  have hmain : ∀ pth : List Char, isSuffixL (str "/add") pth = true →
      TaskManager.fetch fid now ts
          { method := HttpMethod.POST, path := pth, body := some b } =
        (ts ++ [{ id := fid, title := jsToString b.title,
                  dueDate := if jsTruthy b.dueDate then
                      some (jsToString b.dueDate) else Option.none,
                  createdAt := now }],
         StoreResponse.created
           { id := fid, title := jsToString b.title,
             dueDate := if jsTruthy b.dueDate then
                 some (jsToString b.dueDate) else Option.none,
             createdAt := now }) := by
    intro pth hp
    simp only [TaskManager.fetch]
    rw [if_pos ⟨trivial, hp⟩]
  refine ⟨hmain path hpath, ?_, ?_, ?_, ?_⟩
  · rw [hmain path hpath]
    rfl
  · intro h
    rw [h]
    rfl
  · intro h
    rw [h]
    simp [jsTruthy]
  · intro path2 h2
    rw [hmain path2 h2, hmain path hpath]

theorem store_add_unvalidated_witness :
    isSuffixL (str "/add") (str "/alice/add") = true ∧
    TaskManager.fetch (str "id1") (str "t1") []
        { method := HttpMethod.POST, path := str "/alice/add",
          body := some { title := Option.none,
                         dueDate := some (JVal.jstr []) } } =
      ([{ id := str "id1", title := str "undefined", dueDate := Option.none,
          createdAt := str "t1" }],
       StoreResponse.created
         { id := str "id1", title := str "undefined", dueDate := Option.none,
           createdAt := str "t1" }) := by
  refine ⟨by decide, ?_⟩
  have h := (store_add_unvalidated (str "id1") (str "t1") [] (str "/alice/add")
    { title := Option.none, dueDate := some (JVal.jstr []) } (by decide)).1
  simpa [jsToString, jsTruthy] using h

/-- C4: for every `POST /api/chat` request whose message parses to the
none intent, when the model call throws the handler answers HTTP 503
with a JSON body whose reply is the fixed unavailability text; the
handler is a total function, so no exception escapes it. -/
theorem modelFailure_503response :
    ∀ (b : ChatRequest) (uid msg : List Char) stores (fid now : List Char),
      b.userId = some (JVal.jstr uid) → b.message = some (JVal.jstr msg) →
      parseCommand msg = Command.none →
      (handleChat (some b) stores Option.none fid now).resp =
        { status := 503, body := BodyV.json unavailableMsg Option.none } := by
  intro b uid msg stores fid now hu hm hp
  obtain ⟨u, m'⟩ := b
  simp only at hu hm
  subst hu
  subst hm
  simp only [handleChat, hp]

theorem modelFailure_503response_witness :
    (handleChat (some (strRequest (str "alice") (str "hello there")))
        (fun _ => []) Option.none (str "id1") (str "t1")).resp =
      { status := 503, body := BodyV.json unavailableMsg Option.none } :=
  modelFailure_503response (strRequest (str "alice") (str "hello there"))
    (str "alice") (str "hello there") (fun _ => []) (str "id1") (str "t1")
    rfl rfl (by decide)

/-- C3 (counterexample): on a model-call failure the handler does NOT
respond with success at the transport level: for the concrete request
`{userId: "alice", message: "hello there"}` with a throwing model, the
response status is 503, which is not a 2xx success status. -/
theorem modelFailure_notTransportSuccess :
    (handleChat (some (strRequest (str "alice") (str "hello there")))
        (fun _ => []) Option.none (str "id1") (str "t1")).resp.status = 503 ∧
    ¬ (200 ≤ (handleChat (some (strRequest (str "alice") (str "hello there")))
          (fun _ => []) Option.none (str "id1") (str "t1")).resp.status ∧
       (handleChat (some (strRequest (str "alice") (str "hello there")))
          (fun _ => []) Option.none (str "id1") (str "t1")).resp.status < 300) := by
  refine ⟨rfl, ?_⟩
  intro hc
  have h1 : (handleChat (some (strRequest (str "alice") (str "hello there")))
      (fun _ => []) Option.none (str "id1") (str "t1")).resp.status = 503 := rfl
  rw [h1] at hc
  omega

/-- C3 (amended): when the hosted-model call fails, the handler still
produces a response (no exception propagates to the caller) whose
reply is the fixed unavailability message, but at the transport level
it carries the 503 service-unavailable status, not a success status;
the store is left untouched. -/
theorem modelFailure_degradedReply :
    ∀ (b : ChatRequest) (uid msg : List Char) stores (fid now : List Char),
      b.userId = some (JVal.jstr uid) → b.message = some (JVal.jstr msg) →
      parseCommand msg = Command.none →
      (handleChat (some b) stores Option.none fid now).resp.status = 503 ∧
      ¬ (200 ≤ (handleChat (some b) stores Option.none fid now).resp.status ∧
         (handleChat (some b) stores Option.none fid now).resp.status < 300) ∧
      (handleChat (some b) stores Option.none fid now).resp.body =
        BodyV.json unavailableMsg Option.none ∧
      (handleChat (some b) stores Option.none fid now).stores = stores := by
  intro b uid msg stores fid now hu hm hp
  have hr : handleChat (some b) stores Option.none fid now =
      { resp := { status := 503, body := BodyV.json unavailableMsg Option.none }, stores := stores, storeRead := false, storeWrite := false, modelCalled := true } := by
    simp only [handleChat, hu, hm, hp]
  rw [hr]
  exact ⟨rfl, by norm_num, rfl, rfl⟩

theorem modelFailure_degradedReply_witness :
    (handleChat (some (strRequest (str "bob") (str "how are you")))
        (fun _ => []) Option.none (str "id2") (str "t2")).resp.status = 503 ∧
    ¬ (200 ≤ (handleChat (some (strRequest (str "bob") (str "how are you")))
          (fun _ => []) Option.none (str "id2") (str "t2")).resp.status ∧
       (handleChat (some (strRequest (str "bob") (str "how are you")))
          (fun _ => []) Option.none (str "id2") (str "t2")).resp.status < 300) ∧
    (handleChat (some (strRequest (str "bob") (str "how are you")))
        (fun _ => []) Option.none (str "id2") (str "t2")).resp.body =
      BodyV.json unavailableMsg Option.none ∧
    (handleChat (some (strRequest (str "bob") (str "how are you")))
        (fun _ => []) Option.none (str "id2") (str "t2")).stores =
      (fun _ => []) :=
  modelFailure_degradedReply (strRequest (str "bob") (str "how are you"))
    (str "bob") (str "how are you") (fun _ => []) (str "id2") (str "t2")
    rfl rfl (by decide)

/-- C8: a `POST /api/chat` body without a string `userId` or a string
`message` (missing field or wrong type) is rejected with the 400
client-error response; the handler performs no store read, no store
write and no model call, and every user's task list is unchanged. -/
theorem invalidBody_rejected :
    ∀ (b : ChatRequest) stores ai (fid now : List Char),
      (isStrField b.userId = false ∨ isStrField b.message = false) →
      (handleChat (some b) stores ai fid now).resp =
        { status := 400, body := BodyV.text (str "Invalid request body") } ∧
      (handleChat (some b) stores ai fid now).stores = stores ∧
      (handleChat (some b) stores ai fid now).storeRead = false ∧
      (handleChat (some b) stores ai fid now).storeWrite = false ∧
      (handleChat (some b) stores ai fid now).modelCalled = false := by
  intro b stores ai fid now hbad
  obtain ⟨u, m'⟩ := b
  rcases u with _ | (s | n | bb | _) <;> rcases m' with _ | (s2 | n2 | bb2 | _) <;>
    first
      | exact ⟨rfl, rfl, rfl, rfl, rfl⟩
      | (rcases hbad with h | h <;> simp [isStrField] at h)

theorem invalidBody_rejected_witness :
    (handleChat (some { userId := some JVal.jnull,
                        message := some (JVal.jstr (str "add milk")) })
        (fun _ => []) Option.none (str "id3") (str "t3")).resp =
      { status := 400, body := BodyV.text (str "Invalid request body") } ∧
    (handleChat (some { userId := some JVal.jnull,
                        message := some (JVal.jstr (str "add milk")) })
        (fun _ => []) Option.none (str "id3") (str "t3")).stores =
      (fun _ => []) ∧
    (handleChat (some { userId := some JVal.jnull,
                        message := some (JVal.jstr (str "add milk")) })
        (fun _ => []) Option.none (str "id3") (str "t3")).storeRead = false ∧
    (handleChat (some { userId := some JVal.jnull,
                        message := some (JVal.jstr (str "add milk")) })
        (fun _ => []) Option.none (str "id3") (str "t3")).storeWrite = false ∧
    (handleChat (some { userId := some JVal.jnull,
                        message := some (JVal.jstr (str "add milk")) })
        (fun _ => []) Option.none (str "id3") (str "t3")).modelCalled = false :=
  invalidBody_rejected
    { userId := some JVal.jnull, message := some (JVal.jstr (str "add milk")) }
    (fun _ => []) Option.none (str "id3") (str "t3") (Or.inl rfl)

/-- C2: operations keyed to one user identifier never touch another
user's list: a chat request performed for `x` (in particular an add)
leaves the store entry of any distinct user `y` unchanged — storage
access being keyed on `idFromName`, the deterministic derivation from
the user identifier — and a subsequent list for `y`, whose store was
empty, returns the empty task array with the fixed "no tasks"
reply. -/
theorem userIsolation :
    ∀ (x y msg : List Char) stores ai (fid now : List Char) ai2
      (fid2 now2 : List Char),
      x ≠ y →
      (handleChat (some (strRequest x msg)) stores ai fid now).stores
          (idFromName y) = stores (idFromName y) ∧
      (stores (idFromName y) = [] →
        (handleChat (some (strRequest y (str "list")))
            (handleChat (some (strRequest x msg)) stores ai fid now).stores
            ai2 fid2 now2).resp =
          { status := 200, body := BodyV.json noTasksMsg (some []) }) := by
  intro x y msg stores ai fid now ai2 fid2 now2 hxy
  have hkey : idFromName y ≠ idFromName x := fun hc => hxy hc.symm
  have hmain : (handleChat (some (strRequest x msg)) stores ai fid now).stores
      (idFromName y) = stores (idFromName y) := by
    simp only [handleChat, strRequest]
    cases hp : parseCommand msg with
    | add t od =>
      dsimp only
      rw [if_neg hkey]
    | list =>
      dsimp only
      rw [if_neg hkey]
    | none =>
      cases ai <;> rfl
  refine ⟨hmain, ?_⟩
  intro hempty
  have hts : (handleChat (some (strRequest x msg)) stores ai fid now).stores
      (idFromName y) = [] := hmain.trans hempty
  generalize hst : (handleChat (some (strRequest x msg)) stores ai fid now).stores = st
  rw [hst] at hts
  simp only [handleChat, strRequest]
  rw [show parseCommand (str "list") = Command.list from by decide]
  dsimp only
  rw [hts, fetch_list_eq]
  simp [noTasksMsg]

theorem userIsolation_witness :
    (handleChat (some (strRequest (str "alice") (str "add milk")))
        (fun _ => []) Option.none (str "i1") (str "t1")).stores
        (idFromName (str "bob")) =
      (fun _ => ([] : List Task)) (idFromName (str "bob")) ∧
    ((fun _ => ([] : List Task)) (idFromName (str "bob")) = [] →
      (handleChat (some (strRequest (str "bob") (str "list")))
          (handleChat (some (strRequest (str "alice") (str "add milk")))
            (fun _ => []) Option.none (str "i1") (str "t1")).stores
          Option.none (str "i2") (str "t2")).resp =
        { status := 200, body := BodyV.json noTasksMsg (some []) }) :=
  userIsolation (str "alice") (str "bob") (str "add milk") (fun _ => [])
    Option.none (str "i1") (str "t1") Option.none (str "i2") (str "t2")
    (by decide)

end TaskApp
